import Mathlib

/-!
Shallow embedding of the cerea-gis geometry decoders and edit-ledger
reconciliation (src/cerea_gis/contour.py, patterns.py, universe.py,
state_helpers.py), with theorems checking the specification's claims.

Modelling conventions:
* Python float coordinates are modelled by an arbitrary type `α` with
  addition and decidable equality; the claims under study are structural
  (counts, ordering, point-for-point additions), not about rounding.
  Concrete instances use `ℤ`.
* A comma-separated text field is modelled as a `Tok α`: its raw string
  together with the result of Python's `float()` on it (`none` when
  `float()` raises `ValueError`).
* A text file is modelled as the list of its lines as `readlines` would
  produce them, each line already stripped and split on `","` into
  tokens (an empty file is `[]`; a blank line is the single empty token).
* Exceptions caught at a caller boundary (`ValueError`, `IndexError`,
  unpacking errors) are modelled as `Except Unit`.
-/

/-- One comma-separated field of a text record: the raw string and the
result of Python `float()` on it (`none` = not numeric). -/
structure Tok (α : Type) where
  raw : String
  val : Option α
deriving DecidableEq

instance {ε σ : Type} [DecidableEq ε] [DecidableEq σ] : DecidableEq (Except ε σ) :=
  fun a b =>
    match a, b with
    | .ok x, .ok y =>
        if h : x = y then .isTrue (by rw [h]) else .isFalse (by simp [h])
    | .error x, .error y =>
        if h : x = y then .isTrue (by rw [h]) else .isFalse (by simp [h])
    | .ok _, .error _ => .isFalse (by simp)
    | .error _, .ok _ => .isFalse (by simp)

/-! ### Contour decoder (contour.py, `parse_contour`)

The Python loop is `for i in range(0, len(coords), 3)` reading
`coords[i]` and `coords[i+1]`; `coords[i+2]` is never read.  Reading past
the end raises `IndexError`, `float` on a non-numeric token raises
`ValueError`; both surface as a parse failure.  The list below carries
only the `float()` results since `parse_contour` never uses the raw text
of a coordinate. -/

/-- Decode the flat coordinate list of `contourTrueStr`, stride 3, taking
`(dx, dy)` and skipping the third value, exactly as the source loop does. -/
def contourPoints {α : Type} [Add α] (cx cy : α) :
    List (Option α) → Except Unit (List (α × α))
  | [] => .ok []
  | [_] => .error ()
  | x :: y :: [] =>
      match x, y with
      | some dx, some dy => .ok [(cx + dx, cy + dy)]
      | _, _ => .error ()
  | x :: y :: _ :: rest =>
      match x, y with
      | some dx, some dy =>
          (contourPoints cx cy rest).map (fun ps => (cx + dx, cy + dy) :: ps)
      | _, _ => .error ()

/-- The final `Polygon(points)` construction of `parse_contour`: shapely
raises `ValueError` when handed 1 or 2 points (a linear ring needs at
least 3 coordinate tuples), while an empty sequence builds an empty
polygon and 3 or more points always construct. -/
def mkPolygon {α : Type} (points : List (α × α)) : Except Unit (List (α × α)) :=
  if points.length = 1 ∨ points.length = 2 then .error () else .ok points

/-- Embedding of `parse_contour`, starting from the already split
`contourTrueStr` field (JSON parsing and the field lookup are the I/O
wrapper around the loop and are outside this model) and ending with the
`Polygon(points)` construction, whose point-count `ValueError` is caught
at the same caller boundary as the loop's failures. -/
def parse_contour {α : Type} [Add α] (coords : List (Option α)) (cx cy : α) :
    Except Unit (List (α × α)) :=
  (contourPoints cx cy coords).bind mkPolygon

/-- Spec-side companion for the amended contour claim: one point per
stride-3 group, including a trailing group of only two values. -/
def pairPoints {α : Type} [Add α] (cx cy : α) : List α → List (α × α)
  | [] => []
  | [_] => []
  | [x, y] => [(cx + x, cy + y)]
  | x :: y :: _ :: rest => (cx + x, cy + y) :: pairPoints cx cy rest

/-! ### Origin reader (universe.py, `read_center`) -/

/-- Embedding of `read_center`: `lines[-1].strip()` then
`x_str, y_str = last_line.split(",")` then `float` on both tokens.
`lines` is the `readlines` output, each line stripped and split on `","`.
Failure cases: empty file (`IndexError` on `lines[-1]`), a split that
does not yield exactly two parts (unpacking `ValueError`), a non-numeric
token (`float` `ValueError`). -/
def read_center {α : Type} (lines : List (List (Tok α))) : Except Unit (α × α) :=
  match lines.getLast? with
  | none => .error ()
  | some lastLine =>
      match lastLine with
      | [xTok, yTok] =>
          match xTok.val, yTok.val with
          | some x, some y => .ok (x, y)
          | _, _ => .error ()
      | _ => .error ()

/-- A blank line (only whitespace, or empty): stripping yields `""`,
whose split on `","` is the single empty token. -/
def blankLine {α : Type} : List (Tok α) := [⟨"", none⟩]

/-! ### Pattern decoder (patterns.py, `parse_patterns`) -/

/-- Decode the coordinate fields of one pattern row (`parts[3:]`): the
Python loop `for i in range(3, len(parts) - 2, 3)` reads `parts[i]` and
`parts[i+1]` for each complete stride-3 group, skipping a group whose
`float()` fails, and ignoring a leftover of fewer than three fields. -/
def rowPoints {α : Type} [Add α] (cx cy : α) : List (Tok α) → List (α × α)
  | a :: b :: _ :: rest =>
      (match a.val, b.val with
       | some dx, some dy => [(cx + dx, cy + dy)]
       | _, _ => []) ++ rowPoints cx cy rest
  | _ => []

/-- Value lookup in an insertion-ordered association list (Python dict). -/
def alistGet {β : Type} (l : List (String × β)) (k : String) : Option β :=
  (l.find? (fun e => e.1 = k)).map (fun e => e.2)

/-- Replace the value stored at a key, keeping its position (Python dict
update of an existing key). -/
def alistSet {β : Type} : List (String × β) → String → β → List (String × β)
  | [], _, _ => []
  | e :: rest, k, v => if e.1 = k then (k, v) :: rest else e :: alistSet rest k v

/-- Process one line of the patterns file against the accumulated
`name → points` mapping, exactly as the loop body of `parse_patterns`:
skip rows with fewer than 9 fields, decode the coordinates, skip rows
with fewer than 2 decoded points, then either start a new entry
(defaultdict insertion at the end) or extend the existing one, dropping
the new row's first point when it equals the accumulated last point. -/
def processRow {α : Type} [Add α] [DecidableEq α] (cx cy : α)
    (st : List (String × List (α × α))) (parts : List (Tok α)) :
    List (String × List (α × α)) :=
  if parts.length < 9 then st
  else
    let name := ((parts.get? 2).getD ⟨"", none⟩).raw
    let pts := rowPoints cx cy (parts.drop 3)
    if pts.length < 2 then st
    else
      match alistGet st name with
      | none => st ++ [(name, pts)]
      | some acc =>
          if acc.isEmpty then alistSet st name pts
          else if acc.getLast? = pts.head? then alistSet st name (acc ++ pts.tail)
          else alistSet st name (acc ++ pts)

/-- Embedding of `parse_patterns`: fold the rows in file order, then keep
the entries with at least two points, in insertion (first-appearance)
order. -/
def parse_patterns {α : Type} [Add α] [DecidableEq α] (cx cy : α)
    (rows : List (List (Tok α))) : List (String × List (α × α)) :=
  (rows.foldl (processRow cx cy) []).filter (fun e => 2 ≤ e.2.length)

/-- A decoded track as built by `load_field_data`:
`{"id": idx, "name": name, "geometry": geom}`. -/
structure Track (α : Type) where
  id : Int
  name : String
  geometry : List (α × α)
deriving DecidableEq

/-- Embedding of the `line_items` construction in `load_field_data`:
`enumerate` over the decoder output. -/
def load_line_items {α : Type} (tracks : List (String × List (α × α))) :
    List (Track α) :=
  tracks.enum.map (fun p => ⟨Int.ofNat p.1, p.2.1, p.2.2⟩)

/-! ### Edit ledger (state_helpers.py)

A normalized edit-ledger entry, as `_normalize_edit_state` produces and
the edit operations maintain it: `order` is `None` or a list of ints,
`renamed` an int-keyed dict (modelled as an insertion-ordered
association list with unique keys), `deleted_ids` a duplicate-free list
of ints, `dirty` a boolean. -/
structure EditState where
  order : Option (List Int)
  renamed : List (Int × String)
  deleted_ids : List Int
  dirty : Bool
deriving DecidableEq

/-- Embedding of `_empty_edit_state`. -/
def empty_edit_state : EditState :=
  { order := none, renamed := [], deleted_ids := [], dirty := false }

/-- Lookup in the int-keyed `renamed` dict (`renamed.get(track_id, ...)`). -/
def dictGet (l : List (Int × String)) (k : Int) : Option String :=
  (l.find? (fun e => e.1 = k)).map (fun e => e.2)

/-- Upsert into the int-keyed `renamed` dict (`renamed[track_id] = name`):
replace the value of an existing key in place, else append. -/
def dictInsert : List (Int × String) → Int → String → List (Int × String)
  | [], k, v => [(k, v)]
  | e :: rest, k, v => if e.1 = k then (k, v) :: rest else e :: dictInsert rest k v

/-- The loop over `requested_order` in `_apply_line_item_edits`: keep ids
not yet seen that are present among the decoded ids, threading the `seen`
set (modelled as a list used only through membership).  Returns the kept
ids and the final `seen`. -/
def pickRequested (itemIds : List Int) (seen : List Int) :
    List Int → List Int × List Int
  | [] => ([], seen)
  | t :: rest =>
      if t ∈ seen then pickRequested itemIds seen rest
      else if t ∈ itemIds then
        let p := pickRequested itemIds (t :: seen) rest
        (t :: p.1, p.2)
      else pickRequested itemIds seen rest

/-- The loop over `base_ids` in `_apply_line_item_edits`: append each
decoded id not yet seen. -/
def pickBase (seen : List Int) : List Int → List Int
  | [] => []
  | t :: rest =>
      if t ∈ seen then pickBase seen rest else t :: pickBase (t :: seen) rest

/-- Lookup in `items_by_id`: the Python dict comprehension
`{int(item["id"]): item for item in line_items}` keeps the last item for
a duplicated id, so the lookup searches the reversed list. -/
def itemsById {α : Type} (items : List (Track α)) (tid : Int) : Option (Track α) :=
  items.reverse.find? (fun item => item.id = tid)

/-- The `order` delta as the reconciliation loop consumes it: Python's
`if requested_order:` treats both `None` and `[]` as "no override", which
coincides with iterating over the empty list. -/
def orderList (st : EditState) : List Int :=
  match st.order with
  | none => []
  | some l => l

/-- Embedding of `_apply_line_item_edits`: empty decode short-circuits to
`[]`; otherwise build the id order (stored order filtered to present ids,
then decoded ids not yet placed), then drop deleted ids and rebuild each
item with its rename override. -/
def apply_line_item_edits {α : Type} (items : List (Track α)) (st : EditState) :
    List (Track α) :=
  if items.isEmpty then []
  else
    let baseIds := items.map (fun item => item.id)
    let p := pickRequested baseIds [] (orderList st)
    let orderedIds := p.1 ++ pickBase p.2 baseIds
    orderedIds.filterMap (fun tid =>
      if tid ∈ st.deleted_ids then none
      else
        match itemsById items tid with
        | none => none
        | some item => some ⟨tid, (dictGet st.renamed tid).getD item.name, item.geometry⟩)

/-- Embedding of `delete_track_edit` on one ledger entry: no-op returning
`False` when the id is already deleted; otherwise append to
`deleted_ids`, purge the id from `renamed` and from a stored `order`, and
set `dirty`. -/
def delete_track_edit (st : EditState) (tid : Int) : Bool × EditState :=
  if tid ∈ st.deleted_ids then (false, st)
  else
    (true,
      { order := st.order.map (fun l => l.filter (fun t => t ≠ tid)),
        renamed := st.renamed.filter (fun e => e.1 ≠ tid),
        deleted_ids := st.deleted_ids ++ [tid],
        dirty := true })

/-- Embedding of `rename_track_edit` on one ledger entry: unconditional
upsert into `renamed`, `dirty` set unconditionally. -/
def rename_track_edit (st : EditState) (tid : Int) (newName : String) : EditState :=
  { st with renamed := dictInsert st.renamed tid newName, dirty := true }

/-- Duplicate removal keeping the first occurrence, as the `seen`-guarded
loop of `set_track_order_edit` performs it. -/
def dedupFirst {β : Type} [DecidableEq β] : List β → List β
  | [] => []
  | x :: xs => x :: (dedupFirst xs).filter (fun y => y ≠ x)

/-- Embedding of `set_track_order_edit` on one ledger entry: store the
deduplicated requested order, `dirty` set unconditionally.  (The `int()`
coercion of each entry is the identity here since ids are modelled as
integers already.) -/
def set_track_order_edit (st : EditState) (ids : List Int) : EditState :=
  { st with order := some (dedupFirst ids), dirty := true }

/-- Embedding of `mark_field_edit_clean` on one existing ledger entry:
clear `dirty`, keep every delta. -/
def mark_field_edit_clean (st : EditState) : EditState :=
  { st with dirty := false }

/-! ### Field keys (state_helpers.py, `field_key` / `parse_field_key`)

Strings are handled as `List Char`; `"::"` is the separator. -/

/-- Embedding of `field_key`: `f"{import_mode}::{farm_name}::{field_name}"`. -/
def field_key (mode farm field : List Char) : List Char :=
  mode ++ (':' :: ':' :: (farm ++ (':' :: ':' :: field)))

/-- Split a string at the first occurrence of `"::"` (leftmost match, as
Python `str.split` scans): `none` when no occurrence exists. -/
def splitOnceCC : List Char → Option (List Char × List Char)
  | [] => none
  | [_] => none
  | c :: d :: rest =>
      if c = ':' ∧ d = ':' then some ([], rest)
      else (splitOnceCC (d :: rest)).map (fun p => (c :: p.1, p.2))

/-- Python `key.split("::", 2)`: at most two splits, leftmost first. -/
def splitCC2 (s : List Char) : List (List Char) :=
  match splitOnceCC s with
  | none => [s]
  | some (a, rest) =>
      match splitOnceCC rest with
      | none => [a, rest]
      | some (b, rest2) => [a, b, rest2]

/-- Embedding of `parse_field_key`: three parts yield them directly, two
parts are a legacy key getting the default mode, anything else raises
`ValueError`. -/
def parse_field_key (key : List Char) :
    Except Unit (List Char × List Char × List Char) :=
  match splitCC2 key with
  | [a, b, c] => .ok (a, b, c)
  | [a, b] => .ok ("Cerea txt".data, a, b)
  | _ => .error ()

/-- Whether a string contains `"::"` as a substring. -/
def hasCC : List Char → Bool
  | [] => false
  | [_] => false
  | c :: d :: rest => if c = ':' ∧ d = ':' then true else hasCC (d :: rest)

/-! ### Spec-side companion definitions

These restate the specification's wording, to be compared with the
embedded code. -/

/-- The name a pattern row contributes to the decoder's mapping: `none`
when the row is skipped (fewer than 9 fields, or fewer than 2 decoded
points). -/
def contribName {α : Type} [Add α] [DecidableEq α] (cx cy : α)
    (parts : List (Tok α)) : Option String :=
  if parts.length < 9 then none
  else if (rowPoints cx cy (parts.drop 3)).length < 2 then none
  else some ((parts.get? 2).getD ⟨"", none⟩).raw

/-- First-appearance order: the names of a list with duplicates removed,
keeping the earliest occurrence, excluding a starting `seen` set. -/
def newNames (seen : List String) : List String → List String
  | [] => []
  | x :: xs => if x ∈ seen then newNames seen xs else x :: newNames (x :: seen) xs

/-- The final id order the specification describes for reconciliation:
the stored order restricted to decoded ids, then the decoded ids not
mentioned in the stored order, then deleted ids removed. -/
def specOrderIds (st : EditState) (baseIds : List Int) : List Int :=
  ((orderList st).filter (fun t => t ∈ baseIds) ++
      baseIds.filter (fun t => t ∉ orderList st)).filter
    (fun t => t ∉ st.deleted_ids)

/-! ## Theorems -/

/-! ### Contour decoder (claim C3) -/

/-- Evaluation of the contour loop on an all-numeric coordinate list:
it fails exactly when the length is `≡ 1 (mod 3)` (the read of
`coords[i+1]` falls off the end), and otherwise produces one point per
stride-3 group, including a trailing group of two. -/
theorem contourPoints_map_some {α : Type} [Add α] (cx cy : α) :
    ∀ vals : List α,
      contourPoints cx cy (vals.map some) =
        if vals.length % 3 = 1 then .error ()
        else .ok (pairPoints cx cy vals)
  | [] => by simp [contourPoints, pairPoints]
  | [x] => by simp [contourPoints, pairPoints]
  | [x, y] => by simp [contourPoints, pairPoints]
  | x :: y :: z :: rest => by
      have ih := contourPoints_map_some cx cy rest
      have hmod : (rest.length + 1 + 1 + 1) % 3 = rest.length % 3 := by omega
      by_cases h1 : rest.length % 3 = 1
      · simp [contourPoints, ih, hmod, h1, Except.map]
      · simp [contourPoints, ih, hmod, h1, pairPoints, Except.map]

/-- The decoded point count in terms of the coordinate-list length: one
point per complete stride-3 group plus one for a trailing pair. -/
theorem pairPoints_length {α : Type} [Add α] (cx cy : α) :
    ∀ vals : List α, (pairPoints cx cy vals).length = (vals.length + 1) / 3
  | [] => by simp [pairPoints]
  | [_] => by simp [pairPoints]
  | [_, _] => by simp [pairPoints]
  | x :: y :: z :: rest => by
      have ih := pairPoints_length cx cy rest
      simp only [pairPoints, List.length_cons, ih]
      omega

/-- C3 (counterexample): the claim says the decoder fails exactly when
the numeric list length is not a multiple of 3; both directions fail on
the code.  The length-8 list `0,0,0,10,0,0,20,20` decodes to 3 points
(the loop reads indices (0,1), (3,4), (6,7)) and the `Polygon`
constructor accepts them, so the decoder succeeds; the length-3 list
`0,0,0` decodes to a single point, which the `Polygon` constructor
rejects with `ValueError`, so the decoder fails. -/
theorem contour_mod3_iff_false :
    parse_contour ([0, 0, 0, 10, 0, 0, 20, 20].map some) (0 : ℤ) 0 =
        .ok [(0, 0), (10, 0), (20, 20)] ∧
      ([0, 0, 0, 10, 0, 0, 20, 20] : List ℤ).length % 3 ≠ 0 ∧
      parse_contour ([0, 0, 0].map some) (0 : ℤ) 0 = .error () ∧
      ([0, 0, 0] : List ℤ).length % 3 = 0 := by
  decide

/-- C3 (amended): on an all-numeric coordinate list the decoder fails
with `ParseError` iff the length is `≡ 1 (mod 3)` (the loop reads past
the end) or the length is 2, 3, 5 or 6 (the decoded point count is 1 or
2, which the `Polygon` constructor rejects); on success it returns the
points `(origin.x + dx, origin.y + dy)` of each `(dx, dy, dz)` triplet
in record order with `dz` discarded — plus, when the length is
`≡ 2 (mod 3)`, one extra point decoded from the trailing two values. -/
theorem contour_parse_error_iff {α : Type} [Add α] (vals : List α) (cx cy : α) :
    (parse_contour (vals.map some) cx cy = .error () ↔
        vals.length % 3 = 1 ∨ vals.length = 2 ∨ vals.length = 3 ∨
          vals.length = 5 ∨ vals.length = 6) ∧
      (parse_contour (vals.map some) cx cy ≠ .error () →
        parse_contour (vals.map some) cx cy = .ok (pairPoints cx cy vals)) := by
  have h := contourPoints_map_some cx cy vals
  have hlen := pairPoints_length cx cy vals
  by_cases h1 : vals.length % 3 = 1
  · rw [parse_contour, h, if_pos h1]
    exact ⟨⟨fun _ => Or.inl h1, fun _ => rfl⟩, fun hne => absurd rfl hne⟩
  · rw [parse_contour, h, if_neg h1]
    have hbind : (Except.ok (pairPoints cx cy vals) :
        Except Unit (List (α × α))).bind mkPolygon =
        mkPolygon (pairPoints cx cy vals) := rfl
    rw [hbind, mkPolygon, hlen]
    by_cases hp : (vals.length + 1) / 3 = 1 ∨ (vals.length + 1) / 3 = 2
    · rw [if_pos hp]
      refine ⟨⟨fun _ => ?_, fun _ => rfl⟩, fun hne => absurd rfl hne⟩
      omega
    · rw [if_neg hp]
      refine ⟨⟨fun he => absurd he (by simp), fun hor => ?_⟩, fun _ => rfl⟩
      exfalso
      rcases hor with h2 | h2 | h2 | h2 | h2 <;> omega

/-- C3 (witness): the amended theorem evaluated on the length-12 list
`1,2,0,3,4,0,5,6,0,7,8,0` (four triplets) with origin `(10, 20)`. -/
theorem contour_parse_error_iff_witness :
    parse_contour ([1, 2, 0, 3, 4, 0, 5, 6, 0, 7, 8, 0].map some)
        (10 : ℤ) 20 =
      .ok (pairPoints 10 20 [1, 2, 0, 3, 4, 0, 5, 6, 0, 7, 8, 0]) :=
  (contour_parse_error_iff [1, 2, 0, 3, 4, 0, 5, 6, 0, 7, 8, 0] 10 20).2
    (by decide)

/-! ### Origin reader (claim C6) -/

/-- C6 (counterexample): the claim says the reader uses the last
non-blank line, but `read_center` reads `lines[-1]` literally.  On a file
whose last line is blank while the previous line is `"1,2"` (one
delimiter, both tokens numeric), the claim's failure conditions all fail
to hold, yet the code raises. -/
theorem read_center_trailing_blank_fails :
    (([[⟨"1", some 1⟩, ⟨"2", some 2⟩], blankLine] :
          List (List (Tok ℤ))).filter (fun l => l ≠ blankLine)).getLast? =
        some [⟨"1", some 1⟩, ⟨"2", some 2⟩] ∧
      read_center ([[⟨"1", some 1⟩, ⟨"2", some 2⟩], blankLine] :
          List (List (Tok ℤ))) = .error () := by
  decide

/-- C6 (amended): `read_center` reads the file's literal last line
(stripped), splits it on the comma delimiter and parses two floats; it
succeeds iff the file is non-empty, the last line splits into exactly two
tokens (exactly one delimiter), and both tokens are numeric — and then
returns exactly those two parsed values. -/
theorem read_center_last_line {α : Type} (lines : List (List (Tok α))) :
    ((∃ p, read_center lines = .ok p) ↔
        ∃ a b : Tok α, lines.getLast? = some [a, b] ∧
          a.val.isSome ∧ b.val.isSome) ∧
      (∀ (a b : Tok α) (x y : α), lines.getLast? = some [a, b] →
        a.val = some x → b.val = some y → read_center lines = .ok (x, y)) := by
  constructor
  · cases hL : lines.getLast? with
    | none => simp [read_center, hL]
    | some last =>
      rcases last with _ | ⟨a, _ | ⟨b, _ | ⟨c, t⟩⟩⟩
      · simp [read_center, hL]
      · simp [read_center, hL]
      · cases ha : a.val with
        | none => simp [read_center, hL, ha]
        | some x =>
          cases hb : b.val with
          | none => simp [read_center, hL, ha, hb]
          | some y =>
            constructor
            · intro _
              exact ⟨a, b, rfl, by simp [ha], by simp [hb]⟩
            · intro _
              exact ⟨(x, y), by simp [read_center, hL, ha, hb]⟩
      · simp [read_center, hL]
  · intro a b x y hL ha hb
    simp [read_center, hL, ha, hb]

/-- C6 (witness): the amended theorem evaluated on the one-line file
`"3,4"`. -/
theorem read_center_last_line_witness :
    read_center [[(⟨"3", some 3⟩ : Tok ℤ), ⟨"4", some 4⟩]] = .ok (3, 4) :=
  (read_center_last_line [[(⟨"3", some 3⟩ : Tok ℤ), ⟨"4", some 4⟩]]).2
    ⟨"3", some 3⟩ ⟨"4", some 4⟩ 3 4 (by decide) (by decide) (by decide)

/-! ### Pattern decoder row skipping (claim C7) -/

/-- Rows whose coordinate tokens are all non-numeric decode to no
points. -/
theorem rowPoints_eq_nil_of_none {α : Type} [Add α] (cx cy : α) :
    ∀ l : List (Tok α), (∀ t ∈ l, t.val = none) → rowPoints cx cy l = []
  | [], _ => rfl
  | [_], _ => rfl
  | [_, _], _ => rfl
  | a :: b :: c :: rest, h => by
      have ha : a.val = none := h a (by simp)
      have ih := rowPoints_eq_nil_of_none cx cy rest
        (fun t ht => h t (by simp [ht]))
      simp [rowPoints, ha, ih]

/-- A malformed pattern row (fewer than 9 fields, or no two numeric
coordinate pairs) leaves the accumulated mapping untouched. -/
theorem processRow_skip {α : Type} [Add α] [DecidableEq α] (cx cy : α)
    (st : List (String × List (α × α))) (parts : List (Tok α))
    (h : parts.length < 9 ∨ ∀ t ∈ parts.drop 3, t.val = none) :
    processRow cx cy st parts = st := by
  rcases h with h9 | hnone
  · simp [processRow, h9]
  · by_cases h9 : parts.length < 9
    · simp [processRow, h9]
    · have hrp := rowPoints_eq_nil_of_none cx cy (parts.drop 3) hnone
      simp [processRow, h9, hrp]

/-- C7: a pattern line with fewer than 9 comma-separated fields, or one
whose coordinate fields are all non-numeric, contributes nothing to the
decoded output (the decoder itself is a total function and never
raises); in particular a line with exactly 7 fields is skipped silently,
and deleting such a line from a file does not change the decode. -/
theorem pattern_malformed_row_skipped {α : Type} [Add α] [DecidableEq α]
    (cx cy : α) (st : List (String × List (α × α))) (parts : List (Tok α)) :
    (parts.length < 9 → processRow cx cy st parts = st) ∧
      ((∀ t ∈ parts.drop 3, t.val = none) → processRow cx cy st parts = st) ∧
      (parts.length = 7 → processRow cx cy st parts = st) ∧
      (parts.length < 9 ∨ (∀ t ∈ parts.drop 3, t.val = none) →
        ∀ pre post, parse_patterns cx cy (pre ++ parts :: post) =
          parse_patterns cx cy (pre ++ post)) := by
  refine ⟨fun h9 => processRow_skip cx cy st parts (Or.inl h9),
    fun hn => processRow_skip cx cy st parts (Or.inr hn),
    fun h7 => processRow_skip cx cy st parts (Or.inl (by omega)),
    fun h pre post => ?_⟩
  rw [parse_patterns, parse_patterns, List.foldl_append, List.foldl_append,
    List.foldl_cons, processRow_skip cx cy _ parts h]

/-- C7 (witness): a 7-field row is dropped: processed against the empty
mapping it returns the empty mapping. -/
theorem pattern_malformed_row_skipped_witness :
    processRow (0 : ℤ) 0 []
      [⟨"1", some 1⟩, ⟨"m", none⟩, ⟨"A", none⟩, ⟨"0", some 0⟩,
        ⟨"0", some 0⟩, ⟨"0", some 0⟩, ⟨"5", some 5⟩] = [] :=
  (pattern_malformed_row_skipped (0 : ℤ) 0 []
    [⟨"1", some 1⟩, ⟨"m", none⟩, ⟨"A", none⟩, ⟨"0", some 0⟩,
      ⟨"0", some 0⟩, ⟨"0", some 0⟩, ⟨"5", some 5⟩]).2.2.1 (by decide)

/-! ### Dirty flag (claim C9) -/

/-- C9 (counterexample): the claim says a rename supplying the track's
current decoded name, or an order equal to the decode order, leaves
`dirty` false.  With one decoded track of id 0 named `"A"` (so `"A"` is
the current decoded name and `[0]` the decode order), both operations set
`dirty` to true. -/
theorem noop_rename_sets_dirty :
    (apply_line_item_edits [(⟨0, "A", [((0 : ℤ), 0)]⟩ : Track ℤ)]
          empty_edit_state).map Track.name = ["A"] ∧
      (rename_track_edit empty_edit_state 0 "A").dirty = true ∧
      (set_track_order_edit empty_edit_state [0]).dirty = true := by
  decide

/-- C9 (amended): `rename_track_edit` and `set_track_order_edit` set
`dirty` unconditionally — the recorded delta is never compared against
the freshly decoded state — and `dirty` is cleared only by
`mark_field_edit_clean` (or by discarding the entry), so `dirty` means
"some edit was recorded since the last export/reset", not "some delta is
non-default relative to the decode". -/
theorem dirty_set_unconditionally (st : EditState) (tid : Int) (name : String)
    (ids : List Int) :
    (rename_track_edit st tid name).dirty = true ∧
      (set_track_order_edit st ids).dirty = true ∧
      (mark_field_edit_clean st).dirty = false :=
  ⟨rfl, rfl, rfl⟩

/-! ### Field keys (claim C10) -/

/-- The first `"::"` found in `a ++ "::" ++ rest` is the appended
separator, provided `a` neither contains `"::"` nor ends in `':'` (a
trailing `':'` would fuse with the separator into an earlier match). -/
theorem splitOnceCC_sep :
    ∀ (a rest : List Char), hasCC a = false → a.getLast? ≠ some ':' →
      splitOnceCC (a ++ ':' :: ':' :: rest) = some (a, rest)
  | [], rest, _, _ => by simp [splitOnceCC]
  | [c], rest, _, hlast => by
      have hc : c ≠ ':' := fun h => hlast (by simp [h])
      simp [splitOnceCC, hc]
  | c :: d :: a2, rest, hcc, hlast => by
      simp only [hasCC] at hcc
      have hnot : ¬(c = ':' ∧ d = ':') := by
        intro h
        rw [if_pos h] at hcc
        exact absurd hcc (by simp)
      have htail : hasCC (d :: a2) = false := by rwa [if_neg hnot] at hcc
      have hlast2 : (d :: a2).getLast? ≠ some ':' := by
        rwa [List.getLast?_cons_cons] at hlast
      have ih := splitOnceCC_sep (d :: a2) rest htail hlast2
      simp only [List.cons_append] at ih ⊢
      rw [splitOnceCC.eq_def]
      simp [hnot, ih]

/-- C10 (counterexample): the claim requires only that mode and farm
contain no `"::"`; with `mode = "a:"`, `farm = "b"`, `field = "c"` the key
is `"a:::b::c"`, whose first `"::"` occurrence sits inside `"a:::"`, so
parsing returns `("a", ":b", "c")`, not `("a:", "b", "c")`. -/
theorem field_key_roundtrip_cex :
    hasCC "a:".data = false ∧ hasCC "b".data = false ∧
      parse_field_key (field_key "a:".data "b".data "c".data) ≠
        .ok ("a:".data, "b".data, "c".data) := by
  decide

/-- C10 (amended): if the import mode and the farm name contain no `"::"`
substring and do not end with `':'`, then
`parse_field_key (field_key mode farm field) = (mode, farm, field)`, even
when the field name contains `"::"`. -/
theorem field_key_roundtrip (mode farm field : List Char)
    (h1 : hasCC mode = false) (h2 : mode.getLast? ≠ some ':')
    (h3 : hasCC farm = false) (h4 : farm.getLast? ≠ some ':') :
    parse_field_key (field_key mode farm field) = .ok (mode, farm, field) := by
  have e1 := splitOnceCC_sep mode (farm ++ ':' :: ':' :: field) h1 h2
  have e2 := splitOnceCC_sep farm field h3 h4
  rw [field_key, parse_field_key, splitCC2, e1]
  simp [e2]

/-- C10 (witness): the amended theorem at mode `"Cerea txt"`, farm
`"Farm A"`, field `"F::1"` (a field name containing `"::"`). -/
theorem field_key_roundtrip_witness :
    parse_field_key (field_key "Cerea txt".data "Farm A".data "F::1".data) =
      .ok ("Cerea txt".data, "Farm A".data, "F::1".data) :=
  field_key_roundtrip "Cerea txt".data "Farm A".data "F::1".data
    (by decide) (by decide) (by decide) (by decide)

/-! ### Pattern continuation rows (claim C4) -/

/-- C4: when a decodable row (at least 9 fields, at least 2 decoded
points) carries an already-seen name with a non-empty accumulated
sequence, the decoder appends the row's decoded points to that sequence,
dropping the row's first point exactly when it equals the accumulated
last point; in particular rows `1,mode,A,0,0,0,10,0,0` then
`1,mode,A,10,0,0,20,0,0` yield the single track `"A"` with points
`[(ox, oy), (ox+10, oy), (ox+20, oy)]`. -/
theorem pattern_continuation_merge {α : Type} [Add α] [DecidableEq α]
    (cx cy : α) (st : List (String × List (α × α))) (parts : List (Tok α))
    (acc : List (α × α)) :
    (¬parts.length < 9 →
      alistGet st (((parts.get? 2).getD ⟨"", none⟩).raw) = some acc →
      acc ≠ [] → ¬(rowPoints cx cy (parts.drop 3)).length < 2 →
      processRow cx cy st parts =
        (if acc.getLast? = (rowPoints cx cy (parts.drop 3)).head? then
          alistSet st (((parts.get? 2).getD ⟨"", none⟩).raw)
            (acc ++ (rowPoints cx cy (parts.drop 3)).tail)
        else
          alistSet st (((parts.get? 2).getD ⟨"", none⟩).raw)
            (acc ++ rowPoints cx cy (parts.drop 3)))) ∧
      (∀ ox oy : ℤ,
        parse_patterns ox oy
          [[⟨"1", some 1⟩, ⟨"m", none⟩, ⟨"A", none⟩, ⟨"0", some 0⟩,
            ⟨"0", some 0⟩, ⟨"0", some 0⟩, ⟨"10", some 10⟩, ⟨"0", some 0⟩,
            ⟨"0", some 0⟩],
           [⟨"1", some 1⟩, ⟨"m", none⟩, ⟨"A", none⟩, ⟨"10", some 10⟩,
            ⟨"0", some 0⟩, ⟨"0", some 0⟩, ⟨"20", some 20⟩, ⟨"0", some 0⟩,
            ⟨"0", some 0⟩]] =
          [("A", [(ox, oy), (ox + 10, oy), (ox + 20, oy)])]) := by
  constructor
  · intro h9 hget hacc hpts
    have hie : acc.isEmpty = false := by
      cases acc with
      | nil => exact absurd rfl hacc
      | cons a l => rfl
    rw [processRow]
    simp only [if_neg h9, if_neg hpts, hget, hie]
    simp
  · intro ox oy
    simp [parse_patterns, processRow, rowPoints, alistGet, alistSet,
      List.get?, List.getLast?, List.find?]

/-- C4 (witness): the merge rule applied to the second example row
against the mapping accumulated from the first, at origin `(0, 0)`. -/
theorem pattern_continuation_merge_witness :
    processRow (0 : ℤ) 0 [("A", [(0, 0), (10, 0)])]
      [⟨"1", some 1⟩, ⟨"m", none⟩, ⟨"A", none⟩, ⟨"10", some 10⟩,
        ⟨"0", some 0⟩, ⟨"0", some 0⟩, ⟨"20", some 20⟩, ⟨"0", some 0⟩,
        ⟨"0", some 0⟩] = [("A", [(0, 0), (10, 0), (20, 0)])] := by
  rw [(pattern_continuation_merge (0 : ℤ) 0 [("A", [(0, 0), (10, 0)])]
    [⟨"1", some 1⟩, ⟨"m", none⟩, ⟨"A", none⟩, ⟨"10", some 10⟩,
      ⟨"0", some 0⟩, ⟨"0", some 0⟩, ⟨"20", some 20⟩, ⟨"0", some 0⟩,
      ⟨"0", some 0⟩] [(0, 0), (10, 0)]).1
    (by decide) (by decide) (by decide) (by decide)]
  decide

/-! ### Reconciliation helper lemmas -/

/-- With duplicate-free input, the `seen`-guarded base loop is a filter
on the `seen` set. -/
theorem pickBase_filter :
    ∀ (base seen : List Int), base.Nodup →
      pickBase seen base = base.filter (fun t => t ∉ seen)
  | [], _, _ => rfl
  | t :: rest, seen, h => by
      obtain ⟨hnotin, hnd⟩ := List.nodup_cons.mp h
      by_cases hs : t ∈ seen
      · rw [pickBase, if_pos hs, pickBase_filter rest seen hnd]
        simp [List.filter_cons, hs]
      · rw [pickBase, if_neg hs, pickBase_filter rest (t :: seen) hnd]
        have heq : rest.filter (fun x => x ∉ t :: seen) =
            rest.filter (fun x => x ∉ seen) := by
          apply List.filter_congr
          intro x hx
          have hxt : x ≠ t := fun he => hnotin (he ▸ hx)
          simp [List.mem_cons, hxt]
        rw [heq]
        simp [List.filter_cons, hs]

/-- In a list of tracks with duplicate-free ids, `find?` by id returns
the member carrying that id. -/
theorem find?_id_unique {α : Type} :
    ∀ (l : List (Track α)) (t : Track α), (l.map Track.id).Nodup → t ∈ l →
      l.find? (fun x => x.id = t.id) = some t
  | [], t, _, ht => absurd ht (List.not_mem_nil t)
  | h :: rest, t, hnd, ht => by
      rw [List.map_cons, List.nodup_cons] at hnd
      obtain ⟨h1, h2⟩ := hnd
      rcases List.mem_cons.mp ht with rfl | hmem
      · simp [List.find?_cons]
      · have hne : h.id ≠ t.id := by
          intro he
          exact h1 (he ▸ List.mem_map_of_mem Track.id hmem)
      
        have ih := find?_id_unique rest t h2 hmem
        simp [List.find?_cons, hne, ih]

/-- `items_by_id` lookup for a track present in a duplicate-free decode. -/
theorem itemsById_self {α : Type} (items : List (Track α))
    (hN : (items.map Track.id).Nodup) (t : Track α) (ht : t ∈ items) :
    itemsById items t.id = some t := by
  rw [itemsById]
  apply find?_id_unique
  · rw [List.map_reverse]
    exact List.nodup_reverse.mpr hN
  · exact List.mem_reverse.mpr ht

/-- Rebuilding each id through a faithful per-id function reproduces the
track list. -/
theorem filterMap_map_id {α : Type} :
    ∀ (l : List (Track α)) (f : Int → Option (Track α)),
      (∀ t ∈ l, f t.id = some t) → (l.map Track.id).filterMap f = l
  | [], _, _ => rfl
  | t :: rest, f, h => by
      rw [List.map_cons, List.filterMap_cons, h t (by simp),
        filterMap_map_id rest f (fun x hx => h x (by simp [hx]))]

/-! ### Reconciliation purity (claim C2) -/

/-- C2: reconciliation is a pure function of the ledger entry and the
decoded track list — the embedding is a function, so the same inputs give
the same output — and reconciling a duplicate-free decode against the
empty (freshly discarded) ledger entry returns the decoded tracks
unchanged, in decode order, with their decoded names. -/
theorem reconcile_pure {α : Type} (items : List (Track α)) (st : EditState) :
    apply_line_item_edits items st = apply_line_item_edits items st ∧
      ((items.map Track.id).Nodup →
        apply_line_item_edits items empty_edit_state = items) := by
  refine ⟨rfl, fun hN => ?_⟩
  cases items with
  | nil => rfl
  | cons t rest =>
    rw [apply_line_item_edits, if_neg (by simp)]
    show (pickBase [] ((t :: rest).map Track.id)).filterMap
        (fun tid => if tid ∈ empty_edit_state.deleted_ids then none
          else match itemsById (t :: rest) tid with
            | none => none
            | some item =>
                some ⟨tid, (dictGet empty_edit_state.renamed tid).getD item.name,
                  item.geometry⟩) = t :: rest
    rw [pickBase_filter _ _ hN,
      List.filter_eq_self.mpr (fun a _ => by simp)]
    apply filterMap_map_id
    intro x hx
    simp only [empty_edit_state]
    rw [if_neg (List.not_mem_nil x.id), itemsById_self (t :: rest) hN x hx]
    rfl

/-- C2 (witness): reconciling a two-track decode against the empty ledger
entry returns it unchanged. -/
theorem reconcile_pure_witness :
    apply_line_item_edits [(⟨0, "A", [(1, 2)]⟩ : Track ℤ), ⟨1, "B", []⟩]
        empty_edit_state = [⟨0, "A", [(1, 2)]⟩, ⟨1, "B", []⟩] :=
  (reconcile_pure [(⟨0, "A", [(1, 2)]⟩ : Track ℤ), ⟨1, "B", []⟩]
      empty_edit_state).2 (by decide)

/-! ### Deletion (claim C8) -/

/-- Looking up a key purged from the rename dict yields nothing. -/
theorem dictGet_filter_ne (l : List (Int × String)) (k : Int) :
    dictGet (l.filter (fun e => e.1 ≠ k)) k = none := by
  rw [dictGet]
  have h : (l.filter (fun e => e.1 ≠ k)).find? (fun e => e.1 = k) = none := by
    rw [List.find?_eq_none]
    intro e he
    have h2 := (List.mem_filter.mp he).2
    simp at h2 ⊢
    exact h2
  rw [h]
  rfl

/-- Purging a key after upserting it is the same as purging it directly. -/
theorem filter_dictInsert (l : List (Int × String)) (k : Int) (v : String) :
    (dictInsert l k v).filter (fun e => e.1 ≠ k) =
      l.filter (fun e => e.1 ≠ k) := by
  induction l with
  | nil => simp [dictInsert]
  | cons e rest ih =>
      by_cases hk : e.1 = k
      · rw [dictInsert, if_pos hk, List.filter_cons, List.filter_cons]
        have h1 : (decide (((k, v) : Int × String).1 ≠ k)) = false := by simp
        have h2 : (decide (e.1 ≠ k)) = false := by simp [hk]
        rw [h1, h2]
        simp
      · rw [dictInsert, if_neg hk, List.filter_cons, List.filter_cons]
        have h2 : (decide (e.1 ≠ k)) = true := by simp [hk]
        rw [h2]
        simp only [if_true]
        rw [ih]

/-- Upserting one key does not change lookups of other keys. -/
theorem dictGet_dictInsert_ne (l : List (Int × String)) (k k' : Int)
    (v : String) (h : k' ≠ k) :
    dictGet (dictInsert l k v) k' = dictGet l k' := by
  induction l with
  | nil => simp [dictInsert, dictGet, List.find?_cons, Ne.symm h]
  | cons e rest ih =>
      by_cases hk : e.1 = k
      · rw [dictInsert, if_pos hk]
        rw [dictGet, dictGet, List.find?_cons, List.find?_cons]
        have h1 : (decide (k = k')) = false := by simp [Ne.symm h]
        have h2 : (decide (e.1 = k')) = false := by simp [hk, Ne.symm h]
        rw [h1, h2]
      · rw [dictInsert, if_neg hk]
        rw [dictGet, dictGet, List.find?_cons, List.find?_cons]
        by_cases he : e.1 = k'
        · simp [he]
        · have h1 : (decide (e.1 = k')) = false := by simp [he]
          rw [h1]
          exact ih

/-- Every track reconciliation returns has an id outside `deleted_ids`. -/
theorem apply_mem_not_deleted {α : Type} (items : List (Track α))
    (st : EditState) : ∀ t ∈ apply_line_item_edits items st,
      t.id ∉ st.deleted_ids := by
  intro t ht
  rw [apply_line_item_edits] at ht
  by_cases hemp : items.isEmpty = true
  · rw [if_pos hemp] at ht
    exact absurd ht (List.not_mem_nil t)
  · rw [if_neg hemp] at ht
    obtain ⟨tid, _, hf⟩ := List.mem_filterMap.mp ht
    by_cases hd : tid ∈ st.deleted_ids
    · rw [if_pos hd] at hf
      exact absurd hf (by simp)
    · rw [if_neg hd] at hf
      cases hI : itemsById items tid with
      | none =>
          rw [hI] at hf
          exact absurd hf (by simp)
      | some item =>
          rw [hI] at hf
          simp only [Option.some_inj] at hf
          rw [← hf]
          exact hd

/-- Reconciliation only reads a ledger entry's `order`, `deleted_ids`,
and the rename lookups of non-deleted ids. -/
theorem apply_congr {α : Type} (items : List (Track α)) (s1 s2 : EditState)
    (hor : s1.order = s2.order) (hdel : s1.deleted_ids = s2.deleted_ids)
    (hren : ∀ k, k ∉ s2.deleted_ids →
      dictGet s1.renamed k = dictGet s2.renamed k) :
    apply_line_item_edits items s1 = apply_line_item_edits items s2 := by
  have ho : orderList s1 = orderList s2 := by rw [orderList, orderList, hor]
  rw [apply_line_item_edits, apply_line_item_edits, ho, hdel]
  have hfun : (fun tid => if tid ∈ s2.deleted_ids then none
      else match itemsById items tid with
        | none => none
        | some item =>
            some (⟨tid, (dictGet s1.renamed tid).getD item.name,
              item.geometry⟩ : Track α)) =
      (fun tid => if tid ∈ s2.deleted_ids then none
      else match itemsById items tid with
        | none => none
        | some item =>
            some (⟨tid, (dictGet s2.renamed tid).getD item.name,
              item.geometry⟩ : Track α)) := by
    funext tid
    by_cases hd : tid ∈ s2.deleted_ids
    · rw [if_pos hd, if_pos hd]
    · rw [if_neg hd, if_neg hd, hren tid hd]
  rw [hfun]

/-- C8 (counterexample): the claim says `recordDelete` sets `dirty` to
true, unconditionally.  Delete id 2 from a fresh entry, mark the entry
clean (export), then delete id 2 again: the second call is a no-op that
returns false and leaves `dirty` false. -/
theorem duplicate_delete_keeps_clean :
    (delete_track_edit
        (mark_field_edit_clean (delete_track_edit empty_edit_state 2).2)
        2).2.dirty = false ∧
      (delete_track_edit
        (mark_field_edit_clean (delete_track_edit empty_edit_state 2).2)
        2).1 = false := by
  decide

/-- C8 (amended): `delete_track_edit` inserts the id into `deleted_ids`
idempotently and returns true exactly when the id was not already
deleted; on a new deletion it purges the id from `renamed` and from any
stored `order` and sets `dirty` to true, while on an already-deleted id
it leaves the entry unchanged (in particular `dirty` keeps its previous
value); after the delete, reconciliation never returns that id, and a
rename of that id recorded before the delete has no effect on reconciled
output. -/
theorem delete_track_properties (st : EditState) (tid : Int) :
    tid ∈ (delete_track_edit st tid).2.deleted_ids ∧
      ((delete_track_edit st tid).1 = true ↔ tid ∉ st.deleted_ids) ∧
      (tid ∉ st.deleted_ids →
        dictGet (delete_track_edit st tid).2.renamed tid = none ∧
        (∀ o, (delete_track_edit st tid).2.order = some o → tid ∉ o) ∧
        (delete_track_edit st tid).2.dirty = true) ∧
      (tid ∈ st.deleted_ids → (delete_track_edit st tid).2 = st) ∧
      (∀ (β : Type) (items : List (Track β)),
        tid ∉ (apply_line_item_edits items (delete_track_edit st tid).2).map
          Track.id) ∧
      (∀ (β : Type) (items : List (Track β)) (nm : String),
        apply_line_item_edits items
            (delete_track_edit (rename_track_edit st tid nm) tid).2 =
          apply_line_item_edits items (delete_track_edit st tid).2) := by
  have hmem : tid ∈ (delete_track_edit st tid).2.deleted_ids := by
    by_cases hd : tid ∈ st.deleted_ids
    · rw [delete_track_edit, if_pos hd]
      exact hd
    · rw [delete_track_edit, if_neg hd]
      simp
  refine ⟨hmem, ?_, ?_, ?_, ?_, ?_⟩
  · by_cases hd : tid ∈ st.deleted_ids
    · rw [delete_track_edit, if_pos hd]
      simp [hd]
    · rw [delete_track_edit, if_neg hd]
      simp [hd]
  · intro hd
    rw [delete_track_edit, if_neg hd]
    refine ⟨dictGet_filter_ne _ _, ?_, rfl⟩
    intro o hoo
    cases horig : st.order with
    | none => rw [horig] at hoo; exact absurd hoo (by simp [Option.map])
    | some l =>
        rw [horig] at hoo
        simp only [Option.map, Option.some_inj] at hoo
        rw [← hoo]
        simp
  · intro hd
    rw [delete_track_edit, if_pos hd]
  · intro β items
    intro hmm
    obtain ⟨t, ht, hid⟩ := List.mem_map.mp hmm
    exact apply_mem_not_deleted items _ t ht (hid ▸ hmem)
  · intro β items nm
    by_cases hd : tid ∈ st.deleted_ids
    · have h1 : delete_track_edit st tid = (false, st) := by
        rw [delete_track_edit, if_pos hd]
      have h2 : delete_track_edit (rename_track_edit st tid nm) tid =
          (false, rename_track_edit st tid nm) := by
        rw [delete_track_edit,
          if_pos (show tid ∈ (rename_track_edit st tid nm).deleted_ids from hd)]
      rw [h1, h2]
      apply apply_congr
      · rfl
      · rfl
      · intro k hk
        have hkt : k ≠ tid := fun he => hk (he ▸ hd)
        exact dictGet_dictInsert_ne st.renamed tid k nm hkt
    · have hd2 : tid ∉ (rename_track_edit st tid nm).deleted_ids := hd
      have hstate : (delete_track_edit (rename_track_edit st tid nm) tid).2 =
          (delete_track_edit st tid).2 := by
        rw [delete_track_edit, delete_track_edit, if_neg hd, if_neg hd2]
        simp only [rename_track_edit]
        rw [filter_dictInsert]
      rw [hstate]

/-- C8 (witness): the amended theorem exercised on a fresh entry at
id 2: the delete reports a new deletion and marks the entry dirty. -/
theorem delete_track_properties_witness :
    (delete_track_edit empty_edit_state 2).1 = true ∧
      (delete_track_edit empty_edit_state 2).2.dirty = true :=
  ⟨((delete_track_properties empty_edit_state 2).2.1).mpr (by decide),
    ((delete_track_properties empty_edit_state 2).2.2.1 (by decide)).2.2⟩

/-! ### Reconciliation order (claim C1) -/

/-- With a duplicate-free requested order disjoint from `seen`, the
requested-order loop keeps exactly the requested ids present among the
decoded ids, in requested order. -/
theorem pickRequested_fst (itemIds : List Int) :
    ∀ (req seen : List Int), req.Nodup → (∀ t ∈ req, t ∉ seen) →
      (pickRequested itemIds seen req).1 =
        req.filter (fun t => t ∈ itemIds)
  | [], _, _, _ => rfl
  | t :: rest, seen, hnd, hdis => by
      obtain ⟨hnotin, hnd2⟩ := List.nodup_cons.mp hnd
      have hts : t ∉ seen := hdis t (by simp)
      rw [pickRequested, if_neg hts]
      by_cases hti : t ∈ itemIds
      · rw [if_pos hti]
        show t :: (pickRequested itemIds (t :: seen) rest).1 = _
        have hdis2 : ∀ x ∈ rest, x ∉ t :: seen := by
          intro x hx
          simp only [List.mem_cons]
          rintro (rfl | hxs)
          · exact hnotin hx
          · exact hdis x (by simp [hx]) hxs
        rw [pickRequested_fst itemIds rest (t :: seen) hnd2 hdis2,
          List.filter_cons]
        have hti2 : (decide (t ∈ itemIds)) = true := by simp [hti]
        rw [hti2]
        simp
      · rw [if_neg hti]
        rw [pickRequested_fst itemIds rest seen hnd2
          (fun x hx => hdis x (by simp [hx])), List.filter_cons]
        have hti2 : (decide (t ∈ itemIds)) = false := by simp [hti]
        rw [hti2]
        simp

/-- Membership in the `seen` set produced by the requested-order loop:
the starting `seen` plus the requested ids present among the decoded
ids. -/
theorem pickRequested_snd_mem (itemIds : List Int) :
    ∀ (req seen : List Int) (x : Int),
      x ∈ (pickRequested itemIds seen req).2 ↔
        x ∈ seen ∨ (x ∈ req ∧ x ∈ itemIds)
  | [], seen, x => by simp [pickRequested]
  | t :: rest, seen, x => by
      by_cases hts : t ∈ seen
      · rw [pickRequested, if_pos hts,
          pickRequested_snd_mem itemIds rest seen x]
        constructor
        · rintro (hx | ⟨hx, hi⟩)
          · exact Or.inl hx
          · exact Or.inr ⟨by simp [hx], hi⟩
        · rintro (hx | ⟨hx, hi⟩)
          · exact Or.inl hx
          · rcases List.mem_cons.mp hx with rfl | hx2
            · exact Or.inl hts
            · exact Or.inr ⟨hx2, hi⟩
      · rw [pickRequested, if_neg hts]
        by_cases hti : t ∈ itemIds
        · rw [if_pos hti]
          show x ∈ (pickRequested itemIds (t :: seen) rest).2 ↔ _
          rw [pickRequested_snd_mem itemIds rest (t :: seen) x]
          constructor
          · rintro (hx | ⟨hx, hi⟩)
            · rcases List.mem_cons.mp hx with rfl | hx2
              · exact Or.inr ⟨by simp, hti⟩
              · exact Or.inl hx2
            · exact Or.inr ⟨by simp [hx], hi⟩
          · rintro (hx | ⟨hx, hi⟩)
            · exact Or.inl (by simp [hx])
            · rcases List.mem_cons.mp hx with rfl | hx2
              · exact Or.inl (by simp)
              · exact Or.inr ⟨hx2, hi⟩
        · rw [if_neg hti, pickRequested_snd_mem itemIds rest seen x]
          constructor
          · rintro (hx | ⟨hx, hi⟩)
            · exact Or.inl hx
            · exact Or.inr ⟨by simp [hx], hi⟩
          · rintro (hx | ⟨hx, hi⟩)
            · exact Or.inl hx
            · rcases List.mem_cons.mp hx with rfl | hx2
              · exact absurd hi hti
              · exact Or.inr ⟨hx2, hi⟩

/-- Projecting ids out of the reconciliation rebuild: for ids present in
the decode it is exactly the removal of deleted ids. -/
theorem filterMap_map_ids {α : Type} (items : List (Track α)) (st : EditState) :
    ∀ l : List Int, (∀ x ∈ l, x ∈ items.map Track.id) →
      ((l.filterMap (fun tid =>
          if tid ∈ st.deleted_ids then none
          else match itemsById items tid with
            | none => none
            | some item =>
                some (⟨tid, (dictGet st.renamed tid).getD item.name,
                  item.geometry⟩ : Track α))).map Track.id) =
        l.filter (fun t => t ∉ st.deleted_ids)
  | [], _ => rfl
  | x :: rest, h => by
      have hx := h x (by simp)
      have ih := filterMap_map_ids items st rest (fun y hy => h y (by simp [hy]))
      by_cases hd : x ∈ st.deleted_ids
      · have hfx : (if x ∈ st.deleted_ids then none
            else match itemsById items x with
              | none => none
              | some item =>
                  some (⟨x, (dictGet st.renamed x).getD item.name,
                    item.geometry⟩ : Track α)) = none := if_pos hd
        simp [List.filterMap_cons, List.filter_cons, hfx, hd, ih]
      · obtain ⟨t, ht, htid⟩ := List.mem_map.mp hx
        cases hI : itemsById items x with
        | none =>
            rw [itemsById] at hI
            have := List.find?_eq_none.mp hI t (List.mem_reverse.mpr ht)
            simp [htid] at this
        | some item =>
            simp [List.filterMap_cons, List.filter_cons, hI, hd, ih]

/-- C1: reconciliation returns every currently decoded, non-deleted track
id exactly once — the final order is the ledger's stored order restricted
to ids present in the decode (in ledger order), followed by the decoded
ids not mentioned in the stored order (in decode order), with
`deleted_ids` then removed.  The hypotheses record the system invariants
that decoded ids are the duplicate-free `enumerate` indices and that
`set_track_order_edit` stores a deduplicated order. -/
theorem reconcile_complete {α : Type} (items : List (Track α)) (st : EditState)
    (hN : (items.map Track.id).Nodup) (hO : (orderList st).Nodup) :
    (apply_line_item_edits items st).map Track.id =
        specOrderIds st (items.map Track.id) ∧
      ∀ tid ∈ items.map Track.id, tid ∉ st.deleted_ids →
        List.count tid ((apply_line_item_edits items st).map Track.id) = 1 := by
  have hmain : (apply_line_item_edits items st).map Track.id =
      specOrderIds st (items.map Track.id) := by
    cases items with
    | nil => simp [apply_line_item_edits, specOrderIds]
    | cons a rest =>
      rw [apply_line_item_edits, if_neg (by simp)]
      show (((pickRequested ((a :: rest).map Track.id) [] (orderList st)).1 ++
          pickBase (pickRequested ((a :: rest).map Track.id) []
            (orderList st)).2 ((a :: rest).map Track.id)).filterMap
          (fun tid => if tid ∈ st.deleted_ids then none
            else match itemsById (a :: rest) tid with
              | none => none
              | some item =>
                  some ⟨tid, (dictGet st.renamed tid).getD item.name,
                    item.geometry⟩)).map Track.id = _
      have h1 : (pickRequested ((a :: rest).map Track.id) []
          (orderList st)).1 =
          (orderList st).filter (fun t => t ∈ (a :: rest).map Track.id) :=
        pickRequested_fst _ (orderList st) [] hO (by simp)
      have h2 : pickBase (pickRequested ((a :: rest).map Track.id) []
          (orderList st)).2 ((a :: rest).map Track.id) =
          ((a :: rest).map Track.id).filter
            (fun t => t ∉ orderList st) := by
        rw [pickBase_filter _ _ hN]
        apply List.filter_congr
        intro x hx
        have hiff := pickRequested_snd_mem ((a :: rest).map Track.id)
          (orderList st) [] x
        simp only [List.not_mem_nil, false_or] at hiff
        rw [decide_eq_decide]
        constructor
        · intro hns hin
          exact hns (hiff.mpr ⟨hin, hx⟩)
        · intro hno hin
          exact hno (hiff.mp hin).1
      rw [filterMap_map_ids (a :: rest) st _ ?_, h1, h2]
      · rfl
      · intro x hxm
        rcases List.mem_append.mp hxm with hxm | hxm
        · rw [h1] at hxm
          have := (List.mem_filter.mp hxm).2
          simpa using this
        · rw [h2] at hxm
          exact (List.mem_filter.mp hxm).1
  have hspecN : (specOrderIds st (items.map Track.id)).Nodup := by
    apply List.Nodup.filter
    apply List.Nodup.append
    · exact List.Nodup.filter _ hO
    · exact List.Nodup.filter _ hN
    · rw [List.disjoint_left]
      intro x ha hb
      have hx1 := (List.mem_filter.mp ha).1
      have hx2 := (List.mem_filter.mp hb).2
      simp at hx2
      exact hx2 hx1
  refine ⟨hmain, fun tid htid hdel => ?_⟩
  rw [hmain]
  apply List.count_eq_one_of_mem hspecN
  rw [specOrderIds, List.mem_filter]
  refine ⟨?_, by simp [hdel]⟩
  rw [List.mem_append]
  by_cases ho : tid ∈ orderList st
  · left
    rw [List.mem_filter]
    exact ⟨ho, by simp [htid]⟩
  · right
    rw [List.mem_filter]
    exact ⟨htid, by simp [ho]⟩

/-- C1 (witness): a stale order `[2, 5, 0]` (5 no longer decoded) against
decode ids `[0, 1, 2]` with id 0 deleted reconciles to `[2, 1]`, and
id 2 appears exactly once. -/
theorem reconcile_complete_witness :
    (apply_line_item_edits
          [(⟨0, "A", []⟩ : Track ℤ), ⟨1, "B", []⟩, ⟨2, "C", []⟩]
          { order := some [2, 5, 0], renamed := [], deleted_ids := [0],
            dirty := true }).map Track.id =
        specOrderIds
          { order := some [2, 5, 0], renamed := [], deleted_ids := [0],
            dirty := true }
          ([(⟨0, "A", []⟩ : Track ℤ), ⟨1, "B", []⟩, ⟨2, "C", []⟩].map
            Track.id) ∧
      List.count 2 ((apply_line_item_edits
          [(⟨0, "A", []⟩ : Track ℤ), ⟨1, "B", []⟩, ⟨2, "C", []⟩]
          { order := some [2, 5, 0], renamed := [], deleted_ids := [0],
            dirty := true }).map Track.id) = 1 :=
  ⟨(reconcile_complete _ _ (by decide) (by decide)).1,
    (reconcile_complete _ _ (by decide) (by decide)).2 2 (by decide)
      (by decide)⟩

/-! ### Pattern emission order (claim C5) -/

/-- Updating a stored value does not change the key list. -/
theorem alistSet_map_fst {β : Type} :
    ∀ (l : List (String × β)) (k : String) (v : β),
      (alistSet l k v).map Prod.fst = l.map Prod.fst
  | [], _, _ => rfl
  | e :: rest, k, v => by
      by_cases hk : e.1 = k
      · rw [alistSet, if_pos hk]
        simp [hk]
      · rw [alistSet, if_neg hk]
        simp [alistSet_map_fst rest k v]

/-- A lookup misses exactly when the key is absent. -/
theorem alistGet_none {β : Type} (l : List (String × β)) (k : String) :
    alistGet l k = none ↔ k ∉ l.map Prod.fst := by
  rw [alistGet]
  constructor
  · intro h hmem
    cases hf : l.find? (fun e => e.1 = k) with
    | none =>
        rw [List.find?_eq_none] at hf
        obtain ⟨e, he, hek⟩ := List.mem_map.mp hmem
        exact hf e he (by simp [hek])
    | some e =>
        rw [hf] at h
        exact absurd h (by simp)
  · intro hmem
    have hf : l.find? (fun e => e.1 = k) = none := by
      rw [List.find?_eq_none]
      intro e he
      simp only [decide_eq_true_eq]
      intro hek
      exact hmem (List.mem_map.mpr ⟨e, he, hek⟩)
    rw [hf]
    rfl

/-- Every entry of an updated association list is the new binding or an
old entry. -/
theorem mem_alistSet {β : Type} :
    ∀ (l : List (String × β)) (k : String) (v : β) (e : String × β),
      e ∈ alistSet l k v → e = (k, v) ∨ e ∈ l
  | [], _, _, e, he => absurd he (List.not_mem_nil e)
  | e0 :: rest, k, v, e, he => by
      by_cases hk : e0.1 = k
      · rw [alistSet, if_pos hk] at he
        rcases List.mem_cons.mp he with rfl | h2
        · exact Or.inl rfl
        · exact Or.inr (by simp [h2])
      · rw [alistSet, if_neg hk] at he
        rcases List.mem_cons.mp he with rfl | h2
        · exact Or.inr (by simp)
        · rcases mem_alistSet rest k v e h2 with h | h
          · exact Or.inl h
          · exact Or.inr (by simp [h])

/-- A successful lookup exhibits a stored entry. -/
theorem alistGet_mem {β : Type} (l : List (String × β)) (k : String) (v : β)
    (h : alistGet l k = some v) : (k, v) ∈ l := by
  rw [alistGet] at h
  cases hf : l.find? (fun e => e.1 = k) with
  | none =>
      rw [hf] at h
      exact absurd h (by simp)
  | some e =>
      rw [hf] at h
      have he1 := List.find?_some hf
      have he2 := List.mem_of_find?_eq_some hf
      have hk : e.1 = k := by simpa using he1
      have hv : e.2 = v := by simpa using h
      have he : e = (k, v) := by
        cases e
        simp only at hk hv
        rw [hk, hv]
      rw [← he]
      exact he2

/-- A row contributing no name leaves the mapping unchanged. -/
theorem processRow_contrib_none {α : Type} [Add α] [DecidableEq α] (cx cy : α)
    (st : List (String × List (α × α))) (parts : List (Tok α))
    (h : contribName cx cy parts = none) :
    processRow cx cy st parts = st := by
  rw [contribName] at h
  by_cases h9 : parts.length < 9
  · simp [processRow, h9]
  · rw [if_neg h9] at h
    by_cases hp : (rowPoints cx cy (parts.drop 3)).length < 2
    · simp [processRow, h9, hp]
    · rw [if_neg hp] at h
      exact absurd h (by simp)

/-- A row contributing a name appends it to the key list when new and
keeps the key list otherwise. -/
theorem processRow_contrib_some {α : Type} [Add α] [DecidableEq α] (cx cy : α)
    (st : List (String × List (α × α))) (parts : List (Tok α)) (n : String)
    (h : contribName cx cy parts = some n) :
    (processRow cx cy st parts).map Prod.fst =
      if n ∈ st.map Prod.fst then st.map Prod.fst
      else st.map Prod.fst ++ [n] := by
  rw [contribName] at h
  by_cases h9 : parts.length < 9
  · rw [if_pos h9] at h
    exact absurd h (by simp)
  · rw [if_neg h9] at h
    by_cases hp : (rowPoints cx cy (parts.drop 3)).length < 2
    · rw [if_pos hp] at h
      exact absurd h (by simp)
    · rw [if_neg hp] at h
      have hn : ((parts.get? 2).getD ⟨"", none⟩).raw = n := by simpa using h
      simp only [processRow, if_neg h9, if_neg hp, hn]
      cases hget : alistGet st n with
      | none =>
          have hnm : n ∉ st.map Prod.fst := (alistGet_none st n).mp hget
          rw [if_neg hnm]
          simp
      | some acc =>
          have hmem : n ∈ st.map Prod.fst := by
            by_contra hnm
            rw [(alistGet_none st n).mpr hnm] at hget
            exact absurd hget (by simp)
          rw [if_pos hmem]
          by_cases hie : acc.isEmpty
          · simp [hie, alistSet_map_fst]
          · by_cases hlh : acc.getLast? =
                (rowPoints cx cy (parts.drop 3)).head?
            · simp [hie, hlh, alistSet_map_fst]
            · simp [hie, hlh, alistSet_map_fst]

/-- Every accumulated sequence keeps at least two points. -/
theorem processRow_min_len {α : Type} [Add α] [DecidableEq α] (cx cy : α)
    (st : List (String × List (α × α))) (parts : List (Tok α))
    (hst : ∀ e ∈ st, 2 ≤ e.2.length) :
    ∀ e ∈ processRow cx cy st parts, 2 ≤ e.2.length := by
  intro e he
  by_cases h9 : parts.length < 9
  · rw [processRow, if_pos h9] at he
    exact hst e he
  · by_cases hp : (rowPoints cx cy (parts.drop 3)).length < 2
    · simp only [processRow, if_neg h9, if_pos hp] at he
      exact hst e he
    · simp only [processRow, if_neg h9, if_pos hp, if_neg hp] at he
      cases hget : alistGet st (((parts.get? 2).getD ⟨"", none⟩).raw) with
      | none =>
          rw [hget] at he
          rcases List.mem_append.mp he with h2 | h2
          · exact hst e h2
          · have h3 : e = (((parts.get? 2).getD ⟨"", none⟩).raw,
                rowPoints cx cy (parts.drop 3)) := by simpa using h2
            rw [h3]
            show 2 ≤ (rowPoints cx cy (parts.drop 3)).length
            omega
      | some acc =>
          rw [hget] at he
          have he2 : e ∈ (if acc.isEmpty then
              alistSet st (((parts.get? 2).getD ⟨"", none⟩).raw)
                (rowPoints cx cy (parts.drop 3))
            else if acc.getLast? = (rowPoints cx cy (parts.drop 3)).head? then
              alistSet st (((parts.get? 2).getD ⟨"", none⟩).raw)
                (acc ++ (rowPoints cx cy (parts.drop 3)).tail)
            else
              alistSet st (((parts.get? 2).getD ⟨"", none⟩).raw)
                (acc ++ rowPoints cx cy (parts.drop 3))) := he
          have hacc : 2 ≤ acc.length :=
            hst _ (alistGet_mem st _ acc hget)
          by_cases hie : acc.isEmpty
          · rw [if_pos hie] at he2
            rcases mem_alistSet st _ _ e he2 with h2 | h2
            · rw [h2]
              show 2 ≤ (rowPoints cx cy (parts.drop 3)).length
              omega
            · exact hst e h2
          · rw [if_neg hie] at he2
            by_cases hlh : acc.getLast? =
                (rowPoints cx cy (parts.drop 3)).head?
            · rw [if_pos hlh] at he2
              rcases mem_alistSet st _ _ e he2 with h2 | h2
              · rw [h2]
                show 2 ≤ (acc ++ (rowPoints cx cy (parts.drop 3)).tail).length
                simp only [List.length_append]
                omega
              · exact hst e h2
            · rw [if_neg hlh] at he2
              rcases mem_alistSet st _ _ e he2 with h2 | h2
              · rw [h2]
                show 2 ≤ (acc ++ rowPoints cx cy (parts.drop 3)).length
                simp only [List.length_append]
                omega
              · exact hst e h2

/-- The key list stays duplicate-free across a row. -/
theorem processRow_keys_nodup {α : Type} [Add α] [DecidableEq α] (cx cy : α)
    (st : List (String × List (α × α))) (parts : List (Tok α))
    (hst : (st.map Prod.fst).Nodup) :
    ((processRow cx cy st parts).map Prod.fst).Nodup := by
  cases hc : contribName cx cy parts with
  | none =>
      rw [processRow_contrib_none cx cy st parts hc]
      exact hst
  | some n =>
      rw [processRow_contrib_some cx cy st parts n hc]
      by_cases hmem : n ∈ st.map Prod.fst
      · rw [if_pos hmem]
        exact hst
      · rw [if_neg hmem]
        refine List.Nodup.append hst (by simp) ?_
        rw [List.disjoint_left]
        intro x hx hxn
        have : x = n := by simpa using hxn
        exact hmem (this ▸ hx)

/-- `newNames` depends on the starting `seen` set only through
membership. -/
theorem newNames_congr :
    ∀ (l : List String) (s1 s2 : List String),
      (∀ x, x ∈ s1 ↔ x ∈ s2) → newNames s1 l = newNames s2 l
  | [], _, _, _ => rfl
  | x :: xs, s1, s2, h => by
      by_cases hx : x ∈ s1
      · rw [newNames, if_pos hx, newNames, if_pos ((h x).mp hx)]
        exact newNames_congr xs s1 s2 h
      · rw [newNames, if_neg hx, newNames, if_neg (fun hh => hx ((h x).mpr hh))]
        congr 1
        apply newNames_congr
        intro y
        simp [List.mem_cons, h y]

/-- The fold's key list is the starting keys followed by the
first appearances of the contributed names. -/
theorem foldl_keys {α : Type} [Add α] [DecidableEq α] (cx cy : α) :
    ∀ (rows : List (List (Tok α))) (st : List (String × List (α × α))),
      ((rows.foldl (processRow cx cy) st).map Prod.fst) =
        st.map Prod.fst ++
          newNames (st.map Prod.fst) (rows.filterMap (contribName cx cy))
  | [], st => by simp [newNames]
  | r :: rows, st => by
      rw [List.foldl_cons, foldl_keys cx cy rows (processRow cx cy st r),
        List.filterMap_cons]
      cases hc : contribName cx cy r with
      | none => rw [processRow_contrib_none cx cy st r hc]
      | some n =>
          rw [processRow_contrib_some cx cy st r n hc]
          by_cases hmem : n ∈ st.map Prod.fst
          · rw [if_pos hmem, newNames, if_pos hmem]
          · rw [if_neg hmem, newNames, if_neg hmem, List.append_assoc,
              List.singleton_append]
            congr 1
            congr 1
            apply newNames_congr
            intro y
            simp [List.mem_append, List.mem_cons, or_comm]

/-- Both fold invariants, threaded from the empty mapping. -/
theorem foldl_min_len {α : Type} [Add α] [DecidableEq α] (cx cy : α) :
    ∀ (rows : List (List (Tok α))) (st : List (String × List (α × α))),
      (∀ e ∈ st, 2 ≤ e.2.length) →
      ∀ e ∈ rows.foldl (processRow cx cy) st, 2 ≤ e.2.length
  | [], _, h => h
  | r :: rows, st, h =>
      foldl_min_len cx cy rows (processRow cx cy st r)
        (processRow_min_len cx cy st r h)

/-- Duplicate-free keys, threaded through the fold. -/
theorem foldl_keys_nodup {α : Type} [Add α] [DecidableEq α] (cx cy : α) :
    ∀ (rows : List (List (Tok α))) (st : List (String × List (α × α))),
      (st.map Prod.fst).Nodup →
      ((rows.foldl (processRow cx cy) st).map Prod.fst).Nodup
  | [], _, h => h
  | r :: rows, st, h =>
      foldl_keys_nodup cx cy rows (processRow cx cy st r)
        (processRow_keys_nodup cx cy st r h)

/-- `load_field_data` assigns ids `0, 1, 2, …` via `enumerate`. -/
theorem load_line_items_ids {α : Type} (l : List (String × List (α × α))) :
    (load_line_items l).map Track.id =
      (List.range l.length).map Int.ofNat := by
  rw [load_line_items, List.map_map]
  have hcomp : (Track.id ∘ fun p : Nat × (String × List (α × α)) =>
      (⟨Int.ofNat p.1, p.2.1, p.2.2⟩ : Track α)) = (Int.ofNat ∘ Prod.fst) :=
    rfl
  rw [hcomp, ← List.map_map, List.enum_map_fst]

/-- C5: the pattern decoder emits exactly one track per distinct name
(duplicate-free name list), each with at least 2 accumulated points, in
first-appearance order of the name among the file's contributing rows
(the rows surviving the skip guards of the algorithm's earlier steps),
and `load_field_data` then assigns each track the 0-based index of its
position in this emission order as its id. -/
theorem pattern_emission_order {α : Type} [Add α] [DecidableEq α] (cx cy : α)
    (rows : List (List (Tok α))) :
    ((parse_patterns cx cy rows).map Prod.fst).Nodup ∧
      (∀ e ∈ parse_patterns cx cy rows, 2 ≤ e.2.length) ∧
      (parse_patterns cx cy rows).map Prod.fst =
        newNames [] (rows.filterMap (contribName cx cy)) ∧
      (load_line_items (parse_patterns cx cy rows)).map Track.id =
        (List.range (parse_patterns cx cy rows).length).map Int.ofNat := by
  have hall : ∀ e ∈ rows.foldl (processRow cx cy) [], 2 ≤ e.2.length :=
    foldl_min_len cx cy rows [] (by simp)
  have hpp : parse_patterns cx cy rows = rows.foldl (processRow cx cy) [] := by
    rw [parse_patterns]
    apply List.filter_eq_self.mpr
    intro a ha
    simpa using hall a ha
  have hkeys := foldl_keys cx cy rows []
  simp only [List.map_nil, List.nil_append] at hkeys
  refine ⟨?_, ?_, ?_, load_line_items_ids _⟩
  · rw [hpp]
    exact foldl_keys_nodup cx cy rows [] (by simp)
  · rw [hpp]
    exact hall
  · rw [hpp]
    exact hkeys

/-- C5 (witness): the emitted track of the two-row example file indeed
has at least two points, via the emission theorem at a concrete file. -/
theorem pattern_emission_order_witness :
    2 ≤ (("A", [((0 : ℤ), (0 : ℤ)), (10, 0), (20, 0)]) :
        String × List (ℤ × ℤ)).2.length :=
  (pattern_emission_order (0 : ℤ) 0
      [[⟨"1", some 1⟩, ⟨"m", none⟩, ⟨"A", none⟩, ⟨"0", some 0⟩,
        ⟨"0", some 0⟩, ⟨"0", some 0⟩, ⟨"10", some 10⟩, ⟨"0", some 0⟩,
        ⟨"0", some 0⟩],
       [⟨"1", some 1⟩, ⟨"m", none⟩, ⟨"A", none⟩, ⟨"10", some 10⟩,
        ⟨"0", some 0⟩, ⟨"0", some 0⟩, ⟨"20", some 20⟩, ⟨"0", some 0⟩,
        ⟨"0", some 0⟩]]).2.1
    ("A", [((0 : ℤ), (0 : ℤ)), (10, 0), (20, 0)]) (by decide)
